import Mathlib

/-!
Shallow embedding of the KMAP repository's core (`src/kmap_engine.py` and the
minterm helpers of `src/logic.py`), together with theorems settling the frozen
claims about it.

Conventions used throughout:
* Python sets of `(row, col)` pairs become `Finset (ℕ × ℕ)`.
* Python lists become Lean `List`s, preserving construction order.
* Python `while` loops become fuel-indexed structural recursions; the fuel
  passed at each call site is large enough that, on the states the program
  actually reaches, the loop always exits through its own stopping condition
  (this is proved where a claim depends on it).
* Functions that can raise in Python return `Option`/`Except` here.
-/

set_option maxHeartbeats 4000000

set_option maxRecDepth 8000

namespace KMap

/-- A K-map grid cell `(row, col)`. -/
abbrev Cell := ℕ × ℕ

/-- `GRAY4` from kmap_engine.py: Gray-code ordering for two-bit combinations. -/
def GRAY4 : List (ℕ × ℕ) := [(0, 0), (0, 1), (1, 1), (1, 0)]

/-- `GRAY4.index(p)` (Python `list.index`, first occurrence). -/
def grayIndex (p : ℕ × ℕ) : ℕ := GRAY4.indexOf p

/-- `map_dimensions` from kmap_engine.py; `none` models the `ValueError`. -/
def map_dimensions (nvars : ℕ) : Option (ℕ × ℕ) :=
  if nvars = 2 then some (2, 2)
  else if nvars = 3 then some (2, 4)
  else if nvars = 4 then some (4, 4)
  else none

/-- `idx_to_rc` from kmap_engine.py.  Bit extractions `(idx >> k) & 1` are
written `idx / 2 ^ k % 2`.  `none` models the `ValueError` for bad `nvars`. -/
def idx_to_rc (nvars idx : ℕ) (orient : Bool) : Option Cell :=
  if nvars = 2 then
    let a := idx / 2 % 2
    let b := idx % 2
    some (if orient then (b, a) else (a, b))
  else if nvars = 3 then
    let a := idx / 4 % 2
    let b := idx / 2 % 2
    let c := idx % 2
    some (a, grayIndex (b, c))
  else if nvars = 4 then
    let a := idx / 8 % 2
    let b := idx / 4 % 2
    let c := idx / 2 % 2
    let d := idx % 2
    some (if orient then (grayIndex (c, d), grayIndex (a, b))
          else (grayIndex (a, b), grayIndex (c, d)))
  else none

/-- `rc_to_bits_4` from kmap_engine.py.  The Python code indexes `GRAY4[r]`
and `GRAY4[c]` directly; callers only pass in-grid coordinates (< 4), so the
out-of-range default of `getD` is never exercised. -/
def rc_to_bits_4 (r c : ℕ) (orient : Bool) : ℕ × ℕ × ℕ × ℕ :=
  if orient then
    let ab := GRAY4.getD c (0, 0)
    let cd := GRAY4.getD r (0, 0)
    (ab.1, ab.2, cd.1, cd.2)
  else
    let cd := GRAY4.getD c (0, 0)
    let ab := GRAY4.getD r (0, 0)
    (ab.1, ab.2, cd.1, cd.2)

/-- `rect_cells` from kmap_engine.py: wrap-around coverage of a rectangle. -/
def rect_cells (r0 rows c0 cols nrows ncols : ℕ) : Finset Cell :=
  (Finset.range rows ×ˢ Finset.range cols).image
    (fun p => ((r0 + p.1) % nrows, (c0 + p.2) % ncols))

/-- Body of the `while` loop of `_power_sizes`; `fuel` bounds the number of
doublings (`limit` doublings always suffice since `2 ^ k` outgrows `k`). -/
def powerSizesAux : ℕ → ℕ → ℕ → List ℕ
  | 0, cur, _ => [cur]
  | fuel + 1, cur, limit =>
    if cur * 2 ≤ limit then cur :: powerSizesAux fuel (cur * 2) limit else [cur]

/-- `_power_sizes` from kmap_engine.py: `[1]` then keep doubling while the
doubled value still fits in `limit`. -/
def power_sizes (limit : ℕ) : List ℕ := powerSizesAux limit 1 limit

/-- Area `rows * cols` of a placement `(r0, rows, c0, cols)`. -/
def rectArea (t : ℕ × ℕ × ℕ × ℕ) : ℕ := t.2.1 * t.2.2.2

/-- The sort key relation of `all_rects`: `x` may come before `y` in the
descending-area order when `x`'s area is at least `y`'s. -/
def areaGE (x y : ℕ × ℕ × ℕ × ℕ) : Prop := rectArea y ≤ rectArea x

instance : DecidableRel areaGE := fun x y =>
  inferInstanceAs (Decidable (rectArea y ≤ rectArea x))

instance : IsTotal (ℕ × ℕ × ℕ × ℕ) areaGE :=
  ⟨fun a b => (le_total (rectArea b) (rectArea a)).imp (fun h => h) (fun h => h)⟩

instance : IsTrans (ℕ × ℕ × ℕ × ℕ) areaGE :=
  ⟨fun _ _ _ hab hbc => le_trans hbc hab⟩

/-- `all_rects` from kmap_engine.py.  Python's stable `list.sort` with
`key=area, reverse=True` is modelled by the stable `List.insertionSort` under
`areaGE`: ties keep their generation order in both. -/
def all_rects (nrows ncols : ℕ) : List (ℕ × ℕ × ℕ × ℕ) :=
  let sizes_r := power_sizes nrows
  let sizes_c := power_sizes ncols
  let rects := sizes_r.reverse.flatMap fun rows =>
    sizes_c.reverse.flatMap fun cols =>
      (List.range nrows).flatMap fun r0 =>
        (List.range ncols).map fun c0 => (r0, rows, c0, cols)
  List.insertionSort areaGE rects

/-- The full coordinate grid `[0,nrows) × [0,ncols)`. -/
def gridCells (nrows ncols : ℕ) : Finset Cell :=
  Finset.range nrows ×ˢ Finset.range ncols

/-- Two cells differ by one step along exactly one axis (with wrap-around). -/
def adjacentCells (nrows ncols : ℕ) (p q : Cell) : Prop :=
  (p.1 = q.1 ∧ (p.2 = (q.2 + 1) % ncols ∨ q.2 = (p.2 + 1) % ncols)) ∨
  (p.2 = q.2 ∧ (p.1 = (q.1 + 1) % nrows ∨ q.1 = (p.1 + 1) % nrows))

instance (nrows ncols : ℕ) (p q : Cell) : Decidable (adjacentCells nrows ncols p q) :=
  inferInstanceAs (Decidable
    ((p.1 = q.1 ∧ (p.2 = (q.2 + 1) % ncols ∨ q.2 = (p.2 + 1) % ncols)) ∨
     (p.2 = q.2 ∧ (p.1 = (q.1 + 1) % nrows ∨ q.1 = (p.1 + 1) % nrows))))

/-- Number of bit positions below `n` where `i` and `j` disagree. -/
def diffBits (n i j : ℕ) : ℕ :=
  ((List.range n).filter fun k => decide (i / 2 ^ k % 2 ≠ j / 2 ^ k % 2)).length

/-- The `GroupRect` dataclass from kmap_engine.py. -/
structure GroupRect where
  r0 : ℕ
  rows : ℕ
  c0 : ℕ
  cols : ℕ
  cells : Finset Cell
deriving DecidableEq

/-- `map_minterms_to_cells` from kmap_engine.py (the Python set comprehension;
for `nvars` outside 2–4 Python raises, modelled by dropping `none`s, which
never happens on the valid inputs the claims quantify over). -/
def map_minterms_to_cells (nvars : ℕ) (minterms : List ℕ) (orient : Bool) : Finset Cell :=
  (minterms.filterMap fun m => idx_to_rc nvars m orient).toFinset

/-- Candidate construction loop of `select_group_rectangles`: keep each
placement whose full wrap-around coverage is non-empty and inside `ones`. -/
def candidateRects (nrows ncols : ℕ) (ones : Finset Cell) : List GroupRect :=
  (all_rects nrows ncols).filterMap fun t =>
    let fc := rect_cells t.1 t.2.1 t.2.2.1 t.2.2.2 nrows ncols
    if fc.Nonempty ∧ fc ⊆ ones then some ⟨t.1, t.2.1, t.2.2.1, t.2.2.2, fc⟩ else none

/-- Lexicographic order on cells, used only to enumerate a `Finset` of cells
as a list. -/
def cellLE (a b : Cell) : Prop := a.1 < b.1 ∨ (a.1 = b.1 ∧ a.2 ≤ b.2)

instance : DecidableRel cellLE := fun a b =>
  inferInstanceAs (Decidable (a.1 < b.1 ∨ (a.1 = b.1 ∧ a.2 ≤ b.2)))

instance : IsTrans Cell cellLE :=
  ⟨by rintro ⟨a1, a2⟩ ⟨b1, b2⟩ ⟨c1, c2⟩ hab hbc; unfold cellLE at *; omega⟩

instance : IsAntisymm Cell cellLE :=
  ⟨by rintro ⟨a1, a2⟩ ⟨b1, b2⟩ hab hba; unfold cellLE at *
      have : a1 = b1 ∧ a2 = b2 := by omega
      simp [this.1, this.2]⟩

instance : IsTotal Cell cellLE :=
  ⟨by rintro ⟨a1, a2⟩ ⟨b1, b2⟩; unfold cellLE; omega⟩

/-- Enumerate a `Finset` as a sorted list.  (Like `Finset.sort`, but built on
the structurally recursive `List.insertionSort` so that it evaluates inside
the kernel.) -/
def sortedList {α : Type} (r : α → α → Prop) [DecidableRel r] [IsTrans α r]
    [IsAntisymm α r] [IsTotal α r] (s : Finset α) : List α :=
  Quot.liftOn s.val (fun l => List.insertionSort r l) (fun a b h =>
    List.eq_of_perm_of_sorted
      ((List.perm_insertionSort r a).trans (h.trans (List.perm_insertionSort r b).symm))
      (List.sorted_insertionSort r a) (List.sorted_insertionSort r b))

/-- One pass of the essential-group search: for each still-uncovered 1-cell,
keep the candidate that is its unique container, if any.  Python iterates the
set `ones_cells - covered_all` in an unspecified order; `sortedList` fixes
one admissible order (every property proved below is order-independent). -/
def essentialsPass (cands : List GroupRect) (ones covered : Finset Cell) : List GroupRect :=
  (sortedList cellLE (ones \ covered)).filterMap fun cell =>
    match cands.filter (fun g => decide (cell ∈ g.cells)) with
    | [g] => some g
    | _ => none

/-- `for group in essentials: if group not in chosen: append + mark covered`. -/
def addEssential (st : List GroupRect × Finset Cell) (g : GroupRect) :
    List GroupRect × Finset Cell :=
  if g ∈ st.1 then st else (st.1 ++ [g], st.2 ∪ g.cells)

/-- The outer `while True` essential loop of `select_group_rectangles`.
Each productive pass covers at least one previously uncovered cell of `ones`,
so fuel `ones.card + 1` (used at the call site) always reaches the
`essentials == []` exit on states arising from a real run. -/
def essentialLoop : ℕ → List GroupRect → Finset Cell →
    List GroupRect × Finset Cell → List GroupRect × Finset Cell
  | 0, _, _, st => st
  | fuel + 1, cands, ones, st =>
    let ess := essentialsPass cands ones st.2
    if ess = [] then st
    else essentialLoop fuel cands ones (ess.foldl addEssential st)

/-- `len(g.cells & remaining)`, the greedy scoring function. -/
def overlap (remaining : Finset Cell) (g : GroupRect) : ℕ := (g.cells ∩ remaining).card

/-- Python `max(candidates, key=f)`: first element attaining the maximum;
`none` models the `ValueError` on an empty list. -/
def argmaxBy (f : GroupRect → ℕ) : List GroupRect → Option GroupRect
  | [] => none
  | g :: gs => some (gs.foldl (fun best x => if f best < f x then x else best) g)

/-- The `while remaining` greedy loop of `select_group_rectangles`.  Each
iteration that recurses covers at least one cell of `remaining`, so fuel
`ones.card + 1` (used at the call site) always reaches the `remaining = ∅`
exit or the `break`. -/
def greedyLoop : ℕ → List GroupRect → Finset Cell →
    List GroupRect × Finset Cell → Option (List GroupRect × Finset Cell)
  | 0, _, _, st => some st
  | fuel + 1, cands, ones, st =>
    if ones \ st.2 = ∅ then some st
    else
      match argmaxBy (overlap (ones \ st.2)) cands with
      | none => none
      | some best =>
        if best.cells ∩ (ones \ st.2) = ∅ then some st
        else greedyLoop fuel cands ones (st.1 ++ [best], st.2 ∪ best.cells)

/-- `select_group_rectangles` from kmap_engine.py.  `none` models the
`ValueError` Python's `max` would raise on an empty candidate list (never
reached for in-bounds `ones`). -/
def select_group_rectangles (nrows ncols : ℕ) (ones : Finset Cell) :
    Option (List GroupRect) :=
  if ones = ∅ then some []
  else
    let cands := candidateRects nrows ncols ones
    let st := essentialLoop (ones.card + 1) cands ones ([], ∅)
    (greedyLoop (ones.card + 1) cands ones st).map Prod.fst

/-- `label_rect_4` from kmap_engine.py: per-variable bit-value sets over the
group's cells; constant 0 emits the negated literal, constant 1 the literal. -/
def label_rect_4 (g : GroupRect) (orient : Bool) : String :=
  let valsA := g.cells.image fun cell => (rc_to_bits_4 cell.1 cell.2 orient).1
  let valsB := g.cells.image fun cell => (rc_to_bits_4 cell.1 cell.2 orient).2.1
  let valsC := g.cells.image fun cell => (rc_to_bits_4 cell.1 cell.2 orient).2.2.1
  let valsD := g.cells.image fun cell => (rc_to_bits_4 cell.1 cell.2 orient).2.2.2
  let piece := fun (name : String) (vals : Finset ℕ) =>
    if vals = {0} then name ++ "'" else if vals = {1} then name else ""
  let s := piece "A" valsA ++ piece "B" valsB ++ piece "C" valsC ++ piece "D" valsD
  if s = "" then "1" else s

/-- Most-significant-bit-first bit `j` of `value` over an `n`-variable domain:
`(value >> (n - 1 - idx)) & 1` in logic.py / kmap_engine.py. -/
def bitAt (n value j : ℕ) : ℕ := value / 2 ^ (n - 1 - j) % 2

/-- `_term_to_minterms` from kmap_engine.py.  A product term whose literals
carry distinct variables is represented by its partial assignment `fixed`
(`none` = free variable, `some b` = variable fixed to bit `b`).  The Python
cartesian-product enumeration over the free variables (in variable order,
most-significant bit first) lists exactly the indices consistent with
`fixed`, in increasing numeric order — the filter of `range (2^n)` below. -/
def term_to_minterms (n : ℕ) (fixed : Fin n → Option Bool) : List ℕ :=
  (List.range (2 ^ n)).filter fun idx =>
    decide (∀ j : Fin n, ∀ b ∈ fixed j, bitAt n idx j.val = (if b then 1 else 0))

/-- `_contiguous_span` from kmap_engine.py: first `start` (Python returns at
the first hit) whose wrap-around run of `coords.card` offsets is exactly
`coords`; `none` models the `ValueError`. -/
def contiguousSpan (coords : Finset ℕ) (size : ℕ) : Option (ℕ × ℕ) :=
  (List.range size).findSome? fun start =>
    if (Finset.range coords.card).image (fun o => (start + o) % size) = coords
    then some (start, coords.card) else none

/-- The grid cells of a product term's minterms (the set comprehension
`{idx_to_rc(nvars, idx, orient) for idx in mins}` of `expression_to_groups`;
`idx_to_rc` never returns `none` once `map_dimensions` has accepted `n`). -/
def termCells (n : ℕ) (orient : Bool) (fixed : Fin n → Option Bool) : Finset Cell :=
  ((term_to_minterms n fixed).filterMap fun idx => idx_to_rc n idx orient).toFinset

/-- Loop body of `expression_to_groups` from kmap_engine.py for one product
term: derive the rectangle origin and span from the occupied row and column
sets; `none` models both the dimension `ValueError` and the
`UnsupportedPattern` failure of `_contiguous_span`. -/
def expression_to_groups_term (n : ℕ) (orient : Bool) (fixed : Fin n → Option Bool) :
    Option GroupRect := do
  let dims ← map_dimensions n
  let cells := termCells n orient fixed
  let rws := cells.image Prod.fst
  let cls := cells.image Prod.snd
  let rspan ← contiguousSpan rws dims.1
  let cspan ← contiguousSpan cls dims.2
  some ⟨rspan.1, rspan.2, cspan.1, cspan.2, cells⟩

/-- Decidable kernel of claim C5, checked exhaustively over all partial
assignments: the per-term translation succeeds and its rectangle's stored
cell set equals both its wrap-around expansion and the term's minterm cells. -/
def termGroupCheck (n : ℕ) (orient : Bool) (fixed : Fin n → Option Bool) : Bool :=
  match map_dimensions n, expression_to_groups_term n orient fixed with
  | some dims, some g =>
      decide (g.cells = rect_cells g.r0 g.rows g.c0 g.cols dims.1 dims.2) &&
      decide (g.cells = termCells n orient fixed)
  | _, _ => false

/-- `validate_minterm_range` from logic.py.  Entries are integers (they can be
negative); `max_valid = (1 <<< n) - 1 = 2 ^ n - 1`.  The `.error` payload is
the `sorted(set(invalid))` list that the raised message names. -/
def validate_minterm_range (minterms : List ℤ) (n : ℕ) : Except (List ℤ) Unit :=
  let max_valid : ℤ := 2 ^ n - 1
  let invalid := minterms.filter fun m => decide (m < 0) || decide (max_valid < m)
  if invalid = [] then .ok () else .error (sortedList (· ≤ ·) invalid.toFinset)

/-- Boolean expression tree (variables are indices into the variable tuple). -/
inductive BExpr where
  | cst (b : Bool)
  | var (i : ℕ)
  | bnot (e : BExpr)
  | band (a b : BExpr)
  | bor (a b : BExpr)
deriving DecidableEq

/-- Evaluation under an assignment, mirroring `expr.xreplace(subs)` followed
by `bool(...)` in `truth_minterms`. -/
def BExpr.eval (ρ : ℕ → Bool) : BExpr → Bool
  | .cst b => b
  | .var i => ρ i
  | .bnot e => !(e.eval ρ)
  | .band a b => (a.eval ρ) && (b.eval ρ)
  | .bor a b => (a.eval ρ) || (b.eval ρ)

/-- `And(*es)` (evaluation-equivalent right fold). -/
def bigAnd (l : List BExpr) : BExpr := l.foldr .band (.cst true)

/-- `Or(*es)` (evaluation-equivalent right fold). -/
def bigOr (l : List BExpr) : BExpr := l.foldr .bor (.cst false)

/-- The assignment of `truth_minterms` for row `idx`: variable `j` receives
bit `j` (most-significant-first) of `idx`. -/
def envOf (n idx : ℕ) : ℕ → Bool := fun j => decide (bitAt n idx j = 1)

/-- `truth_minterms` from logic.py: ascending indices whose assignment makes
the expression true (`itertools.product([0,1], repeat=n)` enumerates the
assignments in exactly this numeric order). -/
def truth_minterms (e : BExpr) (n : ℕ) : List ℕ :=
  (List.range (2 ^ n)).filter fun idx => e.eval (envOf n idx)

/-- The full conjunction of literals for one minterm `value` (the inner loop
of `minterms_to_expression`: bit 1 gives the variable, bit 0 its negation). -/
def mintermClause (n value : ℕ) : BExpr :=
  bigAnd ((List.range n).map fun j =>
    if bitAt n value j = 1 then .var j else .bnot (.var j))

/-- The value `minterms_to_expression` returns: either the Python builtin
`False` (its `return False` on an empty minterm list hands back a plain
`bool`, not a SymPy object) or a SymPy expression tree. -/
inductive PyBoolExpr where
  | pyFalse
  | expr (e : BExpr)
deriving DecidableEq

/-- `minterms_to_expression` from logic.py: the Python builtin `False` on the
empty list, otherwise the disjunction of the per-minterm clauses. -/
def minterms_to_expression (mins : List ℕ) (n : ℕ) : PyBoolExpr :=
  if mins = [] then .pyFalse else .expr (bigOr (mins.map (mintermClause n)))

/-- Running logic.py's `truth_minterms` on a value produced by
`minterms_to_expression`: a genuine expression is evaluated row by row; the
builtin `False` has no `xreplace` method, so the first loop iteration raises
`AttributeError` — modelled as `none`. -/
def truth_minterms_py (v : PyBoolExpr) (n : ℕ) : Option (List ℕ) :=
  match v with
  | .pyFalse => none
  | .expr e => some (truth_minterms e n)

/-- `covered_all`: the union of the cell sets of the chosen rectangles. -/
def unionCells (l : List GroupRect) : Finset Cell :=
  l.foldr (fun g acc => g.cells ∪ acc) ∅

/-- Each rectangle of `l` covers at least one cell of `ones` that no earlier
rectangle of `l` covers. -/
def FreshList (ones : Finset Cell) (l : List GroupRect) : Prop :=
  ∀ i : Fin l.length,
    ∃ cell ∈ ones, cell ∈ (l.get i).cells ∧ cell ∉ unionCells (l.take i.val)

/-- The loop invariant of `select_group_rectangles`. -/
structure SelInv (cands : List GroupRect) (ones : Finset Cell)
    (st : List GroupRect × Finset Cell) : Prop where
  covered_eq : st.2 = unionCells st.1
  subset_cands : ∀ g ∈ st.1, g ∈ cands
  fresh : FreshList ones st.1

/-- The concrete output list of the selector on the 2×2 grid with one 1-cell,
used by the C10 witness. -/
def c10WitnessList : List GroupRect := [⟨0, 1, 0, 1, rect_cells 0 1 0 1 2 2⟩]

theorem mem_sortedList {α : Type} (r : α → α → Prop) [DecidableRel r] [IsTrans α r]
    [IsAntisymm α r] [IsTotal α r] (s : Finset α) (a : α) :
    a ∈ sortedList r s ↔ a ∈ s := by
  rcases s with ⟨m, nd⟩
  induction m using Quotient.inductionOn with
  | h l =>
    show a ∈ List.insertionSort r l ↔ _
    rw [(List.perm_insertionSort r l).mem_iff]
    simp [Finset.mem_mk, Multiset.mem_coe]

theorem sorted_sortedList {α : Type} (r : α → α → Prop) [DecidableRel r] [IsTrans α r]
    [IsAntisymm α r] [IsTotal α r] (s : Finset α) :
    (sortedList r s).Sorted r := by
  rcases s with ⟨m, nd⟩
  induction m using Quotient.inductionOn with
  | h l => exact List.sorted_insertionSort r l

theorem nodup_sortedList {α : Type} (r : α → α → Prop) [DecidableRel r] [IsTrans α r]
    [IsAntisymm α r] [IsTotal α r] (s : Finset α) :
    (sortedList r s).Nodup := by
  rcases s with ⟨m, nd⟩
  induction m using Quotient.inductionOn with
  | h l => exact ((List.perm_insertionSort r l).nodup_iff).2 nd

/-! ### Claim C2: `idx_to_rc` is a bijection onto the grid -/

/-- C2.  For every `n ∈ {2,3,4}` and each orientation flag, `idx_to_rc n · orient`
maps the index range `[0, 2^n)` onto the whole grid given by `map_dimensions n`,
and does so injectively (the image has full cardinality `2^n`); together these
make it a bijection between the index range and the grid. -/
theorem claim_C2 :
    ∀ n ∈ ({2, 3, 4} : Finset ℕ), ∀ orient : Bool,
      ((Finset.range (2 ^ n)).image fun idx => (idx_to_rc n idx orient).getD (0, 0)) =
        gridCells ((map_dimensions n).getD (0, 0)).1 ((map_dimensions n).getD (0, 0)).2 ∧
      ((Finset.range (2 ^ n)).image fun idx => (idx_to_rc n idx orient).getD (0, 0)).card =
        2 ^ n := by
  decide

/-- Witness for C2 at `n = 2`, default orientation. -/
theorem claim_C2_witness :
    ((Finset.range (2 ^ 2)).image fun idx => (idx_to_rc 2 idx true).getD (0, 0)) =
      gridCells ((map_dimensions 2).getD (0, 0)).1 ((map_dimensions 2).getD (0, 0)).2 ∧
    ((Finset.range (2 ^ 2)).image fun idx => (idx_to_rc 2 idx true).getD (0, 0)).card =
      2 ^ 2 :=
  claim_C2 2 (by decide) true

/-! ### Claim C3: Gray adjacency -/

/-- C3.  For every `n ∈ {2,3,4}` and each orientation flag, whenever two
in-range minterm indices map to grid coordinates that differ by one step along
exactly one axis (modulo the grid dimensions, so including the wrap-around
edges), the two indices differ in exactly one of their `n` bits. -/
theorem claim_C3 :
    ∀ n ∈ ({2, 3, 4} : Finset ℕ), ∀ orient : Bool,
      ∀ i ∈ Finset.range (2 ^ n), ∀ j ∈ Finset.range (2 ^ n),
        adjacentCells ((map_dimensions n).getD (0, 0)).1 ((map_dimensions n).getD (0, 0)).2
            ((idx_to_rc n i orient).getD (0, 0)) ((idx_to_rc n j orient).getD (0, 0)) →
          diffBits n i j = 1 := by
  decide

/-- Witness for C3: indices 1 and 3 for `n = 2` sit in adjacent cells and
differ in one bit. -/
theorem claim_C3_witness : diffBits 2 1 3 = 1 :=
  claim_C3 2 (by decide) true 1 (by decide) 3 (by decide) (by decide)

/-! ### Claim C5: every product term yields a well-formed rectangle -/

theorem termGroupCheck_all :
    ∀ n ∈ ({2, 3, 4} : Finset ℕ), ∀ orient : Bool, ∀ fixed : Fin n → Option Bool,
      termGroupCheck n orient fixed = true := by
  decide

/-- C5.  For every `n ∈ {2,3,4}`, either orientation, and every valid product
term over the `n` variables (encoded by its partial assignment `fixed`, where
distinctness of the term's variables is inherent), the per-term translation of
`expression_to_groups` succeeds (no `UnsupportedPattern` error, i.e. the
result is not `none`), and the produced rectangle's stored cell set equals its
wrap-around expansion `rect_cells (r0, rows, c0, cols)`, which equals the set
of grid cells of the term's minterms. -/
theorem claim_C5 :
    ∀ n ∈ ({2, 3, 4} : Finset ℕ), ∀ orient : Bool, ∀ nrows ncols : ℕ,
      map_dimensions n = some (nrows, ncols) → ∀ fixed : Fin n → Option Bool,
        ∃ g, expression_to_groups_term n orient fixed = some g ∧
          g.cells = rect_cells g.r0 g.rows g.c0 g.cols nrows ncols ∧
          g.cells = termCells n orient fixed := by
  intro n hn orient nrows ncols hdim fixed
  have h := termGroupCheck_all n hn orient fixed
  unfold termGroupCheck at h
  rcases hg : expression_to_groups_term n orient fixed with _ | g <;>
    rw [hdim, hg] at h
  · exact absurd h (by simp)
  · refine ⟨g, rfl, ?_, ?_⟩ <;> simp only [Bool.and_eq_true, decide_eq_true_eq] at h
    · exact h.1
    · exact h.2

/-- Witness for C5: the term fixing `A = 1, B = 0` over 4 variables. -/
theorem claim_C5_witness :
    ∃ g, expression_to_groups_term 4 true
        (fun j => if j.val = 0 then some true else if j.val = 1 then some false else none) =
        some g ∧
      g.cells = rect_cells g.r0 g.rows g.c0 g.cols 4 4 ∧
      g.cells = termCells 4 true
        (fun j => if j.val = 0 then some true else if j.val = 1 then some false else none) :=
  claim_C5 4 (by decide) true 4 4 rfl
    (fun j => if j.val = 0 then some true else if j.val = 1 then some false else none)

/-! ### Claim C7: the n = 2 scenario with minterms {1, 3} -/

/-- C7 counterexample.  Under the default orientation (`orient_cols_is_ab =
True`) the claim is false: `idx_to_rc` for `n = 2` returns `(b, a)`, so bit A
is the **column** index, and the cells of minterms 1 and 3 do **not** share a
column index (their column set has two elements); they share the single row
index 1 instead. -/
theorem claim_C7_counterexample :
    ((map_minterms_to_cells 2 [1, 3] true).image Prod.snd).card ≠ 1 ∧
    ((map_minterms_to_cells 2 [1, 3] true).image Prod.fst) = {1} := by
  decide

/-- C7 as amended.  For `n = 2` under the default orientation, bit A is the
column index: minterms {1, 3} map under `idx_to_rc` to the two cells of the
single **row** whose cells have B = 1 (cells `(1,0)` and `(1,1)`, sharing row
index 1), and `select_group_rectangles` on those two cells returns exactly one
2-cell rectangle spanning that row. -/
theorem claim_C7_amended :
    map_minterms_to_cells 2 [1, 3] true = {(1, 0), (1, 1)} ∧
    idx_to_rc 2 1 true = some (1, 0) ∧ idx_to_rc 2 3 true = some (1, 1) ∧
    ((select_group_rectangles 2 2 {(1, 0), (1, 1)}).map fun l =>
        l.map fun g => (g.r0, g.rows, g.c0, g.cols)) = some [(1, 1, 0, 2)] ∧
    ((select_group_rectangles 2 2 {(1, 0), (1, 1)}).getD []).map (fun g => g.cells) =
      [{(1, 0), (1, 1)}] := by
  refine ⟨by decide, by decide, by decide, by decide, by decide⟩

/-! ### Claim C8: the n = 4 all-even scenario -/

/-- C8.  For `n = 4` with minterms {0,2,4,6,8,10,12,14} (all even) under the
default orientation, `select_group_rectangles` returns exactly one rectangle
(the 2×4 placement at `r0 = 3, c0 = 0`, wrapping over rows 3 and 0), its cell
set is precisely the 8 grid cells whose D bit is 0, and `label_rect_4` labels
it `"D'"`. -/
theorem claim_C8 :
    ((select_group_rectangles 4 4 (map_minterms_to_cells 4 [0, 2, 4, 6, 8, 10, 12, 14] true)).map
        fun l => l.map fun g => (g.r0, g.rows, g.c0, g.cols)) = some [(3, 2, 0, 4)] ∧
    ((select_group_rectangles 4 4 (map_minterms_to_cells 4 [0, 2, 4, 6, 8, 10, 12, 14] true)).getD
        []).map (fun g => g.cells) =
      [(gridCells 4 4).filter fun cell => (rc_to_bits_4 cell.1 cell.2 true).2.2.2 = 0] ∧
    ((select_group_rectangles 4 4 (map_minterms_to_cells 4 [0, 2, 4, 6, 8, 10, 12, 14] true)).getD
        []).map (fun g => label_rect_4 g true) = ["D'"] := by
  refine ⟨by decide, by decide, by decide⟩

/-! ### Claim C6: `validate_minterm_range` -/

/-- C6.  `validate_minterm_range minterms n` fails exactly when some entry
lies outside `[0, 2^n − 1]`; when it fails, the values its error names are
precisely the offending entries; when every entry is in range it returns
normally; and for `n = 3` the input `[9]` fails naming `9`. -/
theorem claim_C6 (minterms : List ℤ) (n : ℕ) :
    ((∃ e, validate_minterm_range minterms n = .error e) ↔
      ∃ m ∈ minterms, m < 0 ∨ 2 ^ n - 1 < m) ∧
    (∀ e, validate_minterm_range minterms n = .error e →
      ∀ m, m ∈ e ↔ (m ∈ minterms ∧ (m < 0 ∨ 2 ^ n - 1 < m))) ∧
    ((∀ m ∈ minterms, 0 ≤ m ∧ m ≤ 2 ^ n - 1) →
      validate_minterm_range minterms n = .ok ()) ∧
    validate_minterm_range [9] 3 = .error [9] := by
  have hmem : ∀ m : ℤ,
      (m ∈ minterms.filter fun x => decide (x < 0) || decide ((2 : ℤ) ^ n - 1 < x)) ↔
        (m ∈ minterms ∧ (m < 0 ∨ 2 ^ n - 1 < m)) := by
    intro m
    simp [List.mem_filter]
  by_cases hI : (minterms.filter fun x => decide (x < 0) || decide ((2 : ℤ) ^ n - 1 < x)) = []
  · have hok : validate_minterm_range minterms n = .ok () := by
      unfold validate_minterm_range
      rw [if_pos hI]
    refine ⟨?_, ?_, fun _ => hok, rfl⟩
    · constructor
      · rintro ⟨e, he⟩
        rw [hok] at he
        cases he
      · rintro ⟨m, hm, hout⟩
        have : m ∈ (minterms.filter fun x => decide (x < 0) || decide ((2 : ℤ) ^ n - 1 < x)) :=
          (hmem m).2 ⟨hm, hout⟩
        rw [hI] at this
        cases this
    · intro e he
      rw [hok] at he
      cases he
  · have herr : validate_minterm_range minterms n =
        .error (sortedList (· ≤ ·)
          (minterms.filter fun x => decide (x < 0) || decide ((2 : ℤ) ^ n - 1 < x)).toFinset) := by
      unfold validate_minterm_range
      rw [if_neg hI]
    refine ⟨?_, ?_, ?_, rfl⟩
    · constructor
      · intro _
        rcases List.exists_mem_of_ne_nil _ hI with ⟨m, hm⟩
        exact ⟨m, ((hmem m).1 hm).1, ((hmem m).1 hm).2⟩
      · intro _
        exact ⟨_, herr⟩
    · intro e he m
      rw [herr] at he
      cases he
      rw [mem_sortedList, List.mem_toFinset]
      exact hmem m
    · intro hall
      rcases List.exists_mem_of_ne_nil _ hI with ⟨m, hm⟩
      rcases (hmem m).1 hm with ⟨hmm, hout⟩
      rcases hall m hmm with ⟨h0, h1⟩
      omega

/-- Witness for C6 (the concrete scenario D of the spec): the error raised for
`[9]` with `n = 3` names exactly the value 9. -/
theorem claim_C6_witness :
    (9 : ℤ) ∈ ([9] : List ℤ) ↔
      ((9 : ℤ) ∈ ([9] : List ℤ) ∧ ((9 : ℤ) < 0 ∨ 2 ^ 3 - 1 < (9 : ℤ))) :=
  (claim_C6 [9] 3).2.1 [9] rfl 9

/-! ### Claim C4: minterms → expression → minterms round trip

The SymPy expression trees built by `minterms_to_expression` and consumed by
`truth_minterms` are embedded as a small Boolean AST.  SymPy's n-ary
`And(*literals)` / `Or(*clauses)` are written as right folds of the binary
connectives, which evaluate identically; `truth_minterms` only ever evaluates
the tree, so this is semantics-preserving.  On the empty minterm list,
however, `minterms_to_expression` returns the Python **builtin** `False`
(`PyBoolExpr.pyFalse`), which is not a SymPy object: feeding it back into
`truth_minterms` raises `AttributeError` at `expr.xreplace(subs)`, so the
claimed round trip fails for the empty set (`truth_minterms_py` is `none`). -/

theorem eval_bigOr (ρ : ℕ → Bool) (l : List BExpr) :
    (bigOr l).eval ρ = l.any fun e => e.eval ρ := by
  induction l with
  | nil => rfl
  | cons e l ih => simp only [bigOr, List.foldr_cons, BExpr.eval, List.any_cons]
                   rw [← ih]; rfl

theorem eval_bigAnd (ρ : ℕ → Bool) (l : List BExpr) :
    (bigAnd l).eval ρ = l.all fun e => e.eval ρ := by
  induction l with
  | nil => rfl
  | cons e l ih => simp only [bigAnd, List.foldr_cons, BExpr.eval, List.all_cons]
                   rw [← ih]; rfl

theorem eval_mintermClause (n v idx : ℕ) :
    ((mintermClause n v).eval (envOf n idx) = true) ↔
      ∀ j < n, bitAt n idx j = bitAt n v j := by
  unfold mintermClause
  rw [eval_bigAnd, List.all_eq_true]
  simp only [List.forall_mem_map, List.mem_range]
  refine forall_congr' fun j => imp_congr_right fun _ => ?_
  have hv2 : bitAt n v j = 0 ∨ bitAt n v j = 1 := by unfold bitAt; omega
  have hi2 : bitAt n idx j = 0 ∨ bitAt n idx j = 1 := by unfold bitAt; omega
  rcases hv2 with hv | hv <;> simp [hv, BExpr.eval, envOf] <;> omega

/-- Two indices below `2 ^ n` agreeing on all `n` most-significant-first bits
are equal. -/
theorem eq_of_bits_eq (n v idx : ℕ) (hv : v < 2 ^ n) (hidx : idx < 2 ^ n)
    (h : ∀ j < n, bitAt n idx j = bitAt n v j) : idx = v := by
  apply Nat.eq_of_testBit_eq
  intro k
  by_cases hk : k < n
  · have hj : n - 1 - (n - 1 - k) = k := by omega
    have hbits := h (n - 1 - k) (by omega)
    unfold bitAt at hbits
    rw [hj] at hbits
    rw [Nat.testBit_to_div_mod, Nat.testBit_to_div_mod, hbits]
  · have hn : 2 ^ n ≤ 2 ^ k := Nat.pow_le_pow_right (by omega) (by omega)
    rw [Nat.testBit_lt_two_pow (by omega), Nat.testBit_lt_two_pow (by omega)]

/-- C4 counterexample.  For the empty minterm set the claimed round trip does
not hold on the code: `minterms_to_expression []` returns the Python builtin
`False`, on which `truth_minterms` raises `AttributeError` (a plain `bool`
has no `xreplace`), so the composition produces no list at all — in
particular not `sorted([]) = []`. -/
theorem claim_C4_counterexample :
    minterms_to_expression [] 2 = .pyFalse ∧
    truth_minterms_py (minterms_to_expression [] 2) 2 ≠
      some (sortedList (· ≤ ·) (([] : List ℕ).toFinset)) :=
  ⟨rfl, by decide⟩

/-- C4 as amended.  For every **non-empty** list of minterms with entries in
`[0, 2^n)` (any presentation of the minterm set, in any order and with
duplicates allowed) and `n ≥ 1`, running `truth_minterms` on the expression
built by `minterms_to_expression` returns exactly the sorted minterm set.
For the empty set, `minterms_to_expression` returns the constant false — the
Python builtin `False` — which `truth_minterms` cannot consume (its
`.xreplace` call raises `AttributeError`), so the round trip yields no
result there. -/
theorem claim_C4_amended (mins : List ℕ) (n : ℕ) (hn : 1 ≤ n)
    (hne : mins ≠ []) (hb : ∀ m ∈ mins, m < 2 ^ n) :
    truth_minterms_py (minterms_to_expression mins n) n =
      some (sortedList (· ≤ ·) mins.toFinset) ∧
    minterms_to_expression [] n = .pyFalse ∧
    truth_minterms_py (minterms_to_expression [] n) n = none := by
  refine ⟨?_, rfl, rfl⟩
  have hexpr : minterms_to_expression mins n =
      .expr (bigOr (mins.map (mintermClause n))) := by
    unfold minterms_to_expression
    rw [if_neg hne]
  have key : ∀ idx < 2 ^ n,
      ((bigOr (mins.map (mintermClause n))).eval (envOf n idx) = true ↔ idx ∈ mins) := by
    intro idx hidx
    rw [eval_bigOr, List.any_eq_true]
    constructor
    · rintro ⟨x, hx, hxe⟩
      rcases List.mem_map.1 hx with ⟨v, hvmem, rfl⟩
      have hbits := (eval_mintermClause n v idx).1 hxe
      have hvidx := eq_of_bits_eq n v idx (hb v hvmem) hidx hbits
      rwa [hvidx]
    · intro hidxmem
      exact ⟨mintermClause n idx, List.mem_map_of_mem _ hidxmem,
        (eval_mintermClause n idx idx).2 fun _ _ => rfl⟩
  have hmemiff : ∀ m : ℕ,
      m ∈ truth_minterms (bigOr (mins.map (mintermClause n))) n ↔
        m ∈ sortedList (· ≤ ·) mins.toFinset := by
    intro m
    rw [mem_sortedList, List.mem_toFinset]
    unfold truth_minterms
    rw [List.mem_filter]
    simp only [List.mem_range, decide_eq_true_eq]
    constructor
    · rintro ⟨hm, he⟩
      exact (key m hm).1 he
    · intro hm
      exact ⟨Nat.lt_of_lt_of_le (hb m hm) le_rfl, (key m (hb m hm)).2 hm⟩
  have hs1 : (truth_minterms (bigOr (mins.map (mintermClause n))) n).Sorted (· < ·) :=
    (List.sorted_lt_range (2 ^ n)).filter _
  have hs2 : (sortedList (· ≤ ·) mins.toFinset).Sorted (· < ·) :=
    (sorted_sortedList (· ≤ ·) mins.toFinset).lt_of_le
      (nodup_sortedList (· ≤ ·) mins.toFinset)
  have hlist : truth_minterms (bigOr (mins.map (mintermClause n))) n =
      sortedList (· ≤ ·) mins.toFinset := by
    refine List.eq_of_perm_of_sorted ?_ hs1 hs2
    refine List.perm_of_nodup_nodup_toFinset_eq hs1.nodup hs2.nodup ?_
    ext m
    rw [List.mem_toFinset, List.mem_toFinset]
    exact hmemiff m
  rw [hexpr]
  exact congrArg some hlist

/-- Witness for C4 at the non-empty minterm list `[3, 0]` over two
variables. -/
theorem claim_C4_amended_witness :
    truth_minterms_py (minterms_to_expression [3, 0] 2) 2 =
      some (sortedList (· ≤ ·) ([3, 0] : List ℕ).toFinset) ∧
    minterms_to_expression [] 2 = .pyFalse ∧
    truth_minterms_py (minterms_to_expression [] 2) 2 = none :=
  claim_C4_amended [3, 0] 2 (by decide) (by decide) (by decide)

/-! ### Claim C9: `all_rects` enumerates descending-area power-of-two placements -/

theorem mem_powerSizesAux (fuel : ℕ) :
    ∀ cur limit, 1 ≤ cur → cur ≤ limit → limit ≤ cur * 2 ^ fuel →
      ∀ x, x ∈ powerSizesAux fuel cur limit ↔ ∃ m, x = cur * 2 ^ m ∧ x ≤ limit := by
  induction fuel with
  | zero =>
    intro cur limit hcur hle hfuel x
    simp only [pow_zero, mul_one] at hfuel
    have hcl : cur = limit := le_antisymm hle hfuel
    subst hcl
    simp only [powerSizesAux, List.mem_singleton]
    constructor
    · rintro rfl
      exact ⟨0, by simp⟩
    · rintro ⟨m, rfl, hxle⟩
      have h2 : 2 ^ m ≤ 1 := Nat.le_of_mul_le_mul_left (by simpa [Nat.mul_comm] using hxle) (by omega)
      have hm : m = 0 := by
        by_contra hne
        have := Nat.one_lt_two_pow_iff.2 hne
        omega
      simp [hm]
  | succ fuel ih =>
    intro cur limit hcur hle hfuel x
    simp only [powerSizesAux]
    by_cases hc : cur * 2 ≤ limit
    · rw [if_pos hc]
      have hfuel2 : limit ≤ cur * 2 * 2 ^ fuel := by
        calc limit ≤ cur * 2 ^ (fuel + 1) := hfuel
        _ = cur * 2 * 2 ^ fuel := by ring
      rw [List.mem_cons, ih (cur * 2) limit (by omega) hc hfuel2 x]
      constructor
      · rintro (rfl | ⟨m, rfl, hxle⟩)
        · exact ⟨0, by simp, hle⟩
        · exact ⟨m + 1, by ring, hxle⟩
      · rintro ⟨m, rfl, hxle⟩
        cases m with
        | zero => exact Or.inl (by simp)
        | succ m' => exact Or.inr ⟨m', by ring, hxle⟩
    · rw [if_neg hc]
      simp only [List.mem_singleton]
      constructor
      · rintro rfl
        exact ⟨0, by simp, hle⟩
      · rintro ⟨m, rfl, hxle⟩
        have h2 : 2 ^ m < 2 := by
          have := Nat.lt_of_le_of_lt hxle (by omega : limit < cur * 2)
          exact Nat.lt_of_mul_lt_mul_left this
        have hm : m = 0 := by
          by_contra hne
          have := Nat.one_lt_two_pow_iff.2 hne
          omega
        simp [hm]

/-- For a positive `limit`, `power_sizes limit` holds exactly the powers of
two not exceeding `limit`. -/
theorem mem_power_sizes (limit : ℕ) (h : 1 ≤ limit) (x : ℕ) :
    x ∈ power_sizes limit ↔ ∃ m, x = 2 ^ m ∧ x ≤ limit := by
  unfold power_sizes
  rw [mem_powerSizesAux limit 1 limit le_rfl h (by simpa using (Nat.lt_two_pow limit).le) x]
  simp

/-- Every element of `powerSizesAux` is `cur` times a power of two. -/
theorem powerSizesAux_pow (fuel : ℕ) :
    ∀ cur limit x, x ∈ powerSizesAux fuel cur limit → ∃ m, x = cur * 2 ^ m := by
  induction fuel with
  | zero =>
    intro cur limit x hx
    simp only [powerSizesAux, List.mem_singleton] at hx
    exact ⟨0, by simp [hx]⟩
  | succ fuel ih =>
    intro cur limit x hx
    simp only [powerSizesAux] at hx
    by_cases hc : cur * 2 ≤ limit
    · rw [if_pos hc, List.mem_cons] at hx
      rcases hx with rfl | hx
      · exact ⟨0, by simp⟩
      · rcases ih (cur * 2) limit x hx with ⟨m, rfl⟩
        exact ⟨m + 1, by ring⟩
    · rw [if_neg hc, List.mem_singleton] at hx
      exact ⟨0, by simp [hx]⟩

/-- `1` is always a member of `power_sizes` (it is seeded before the loop). -/
theorem one_mem_power_sizes (limit : ℕ) : 1 ∈ power_sizes limit := by
  unfold power_sizes
  cases limit with
  | zero => simp [powerSizesAux]
  | succ k =>
    simp only [powerSizesAux]
    by_cases hc : 1 * 2 ≤ k + 1
    · rw [if_pos hc]; exact List.mem_cons_self _ _
    · rw [if_neg hc]; simp

/-- Placement membership in `all_rects`, before imposing positivity. -/
theorem mem_all_rects (nrows ncols r0 rows c0 cols : ℕ) :
    (r0, rows, c0, cols) ∈ all_rects nrows ncols ↔
      rows ∈ power_sizes nrows ∧ cols ∈ power_sizes ncols ∧ r0 < nrows ∧ c0 < ncols := by
  unfold all_rects
  rw [(List.perm_insertionSort areaGE _).mem_iff]
  simp only [List.mem_flatMap, List.mem_map, List.mem_reverse, List.mem_range, Prod.mk.injEq]
  constructor
  · rintro ⟨rows', hrows', cols', hcols', r0', hr0', c0', hc0', h1, h2, h3, h4⟩
    subst h1; subst h2; subst h3; subst h4
    exact ⟨hrows', hcols', hr0', hc0'⟩
  · rintro ⟨hrows, hcols, hr0, hc0⟩
    exact ⟨rows, hrows, cols, hcols, r0, hr0, c0, hc0, rfl, rfl, rfl, rfl⟩

/-- C9.  `all_rects nrows ncols` contains exactly the placements
`(r0, rows, c0, cols)` with `rows` and `cols` powers of two not exceeding
`nrows` and `ncols` and `(r0, c0)` ranging over `[0,nrows) × [0,ncols)`, and
the list is ordered by non-increasing area `rows * cols`. -/
theorem claim_C9 (nrows ncols : ℕ) :
    (∀ r0 rows c0 cols : ℕ,
      (r0, rows, c0, cols) ∈ all_rects nrows ncols ↔
        ((∃ k, rows = 2 ^ k) ∧ rows ≤ nrows ∧ (∃ k, cols = 2 ^ k) ∧ cols ≤ ncols ∧
         r0 < nrows ∧ c0 < ncols)) ∧
    (all_rects nrows ncols).Pairwise (fun x y => rectArea y ≤ rectArea x) := by
  constructor
  · intro r0 rows c0 cols
    rw [mem_all_rects]
    constructor
    · rintro ⟨hrows, hcols, hr0, hc0⟩
      rcases (mem_power_sizes nrows (by omega) rows).1 hrows with ⟨k, rfl, hle⟩
      rcases (mem_power_sizes ncols (by omega) cols).1 hcols with ⟨k', rfl, hle'⟩
      exact ⟨⟨k, rfl⟩, hle, ⟨k', rfl⟩, hle', hr0, hc0⟩
    · rintro ⟨⟨k, rfl⟩, hle, ⟨k', rfl⟩, hle', hr0, hc0⟩
      exact ⟨(mem_power_sizes nrows (by omega) _).2 ⟨k, rfl, hle⟩,
        (mem_power_sizes ncols (by omega) _).2 ⟨k', rfl, hle'⟩, hr0, hc0⟩
  · exact List.sorted_insertionSort areaGE _

/-! ### Claims C1 and C10: correctness of `select_group_rectangles`

The two `while` loops of the selector are analysed through one invariant:
`covered_all` is the union of the chosen cells, every chosen rectangle is a
candidate, and every chosen rectangle covers a 1-cell no earlier chosen
rectangle covers. -/

theorem mem_unionCells (l : List GroupRect) (cell : Cell) :
    cell ∈ unionCells l ↔ ∃ g ∈ l, cell ∈ g.cells := by
  induction l with
  | nil => simp [unionCells]
  | cons g l ih =>
    simp only [unionCells, List.foldr_cons, Finset.mem_union, List.mem_cons]
    rw [show l.foldr (fun g acc => g.cells ∪ acc) ∅ = unionCells l from rfl, ih]
    constructor
    · rintro (h | ⟨g', hg', hc⟩)
      · exact ⟨g, Or.inl rfl, h⟩
      · exact ⟨g', Or.inr hg', hc⟩
    · rintro ⟨g', rfl | hg', hc⟩
      · exact Or.inl hc
      · exact Or.inr ⟨g', hg', hc⟩

theorem unionCells_append (l : List GroupRect) (g : GroupRect) :
    unionCells (l ++ [g]) = unionCells l ∪ g.cells := by
  ext cell
  simp only [mem_unionCells, List.mem_append, List.mem_singleton, Finset.mem_union]
  constructor
  · rintro ⟨g', hg' | rfl, hc⟩
    · exact Or.inl ⟨g', hg', hc⟩
    · exact Or.inr hc
  · rintro (⟨g', hg', hc⟩ | hc)
    · exact ⟨g', Or.inl hg', hc⟩
    · exact ⟨g, Or.inr rfl, hc⟩

theorem freshList_nil (ones : Finset Cell) : FreshList ones [] :=
  fun i => absurd i.2 (by simp)

theorem freshList_append (ones : Finset Cell) (l : List GroupRect) (g : GroupRect)
    (hl : FreshList ones l)
    (hg : ∃ cell ∈ ones, cell ∈ g.cells ∧ cell ∉ unionCells l) :
    FreshList ones (l ++ [g]) := by
  intro i
  have hlen : i.val < l.length + 1 := by simpa using i.2
  by_cases hi : i.val < l.length
  · rcases hl ⟨i.val, hi⟩ with ⟨cell, hcell, hcells, hnot⟩
    refine ⟨cell, hcell, ?_, ?_⟩
    · show cell ∈ ((l ++ [g]).get i).cells
      rw [List.get_eq_getElem, List.getElem_append_left hi]
      exact hcells
    · rw [List.take_append_of_le_length (by omega)]
      exact hnot
  · have hieq : i.val = l.length := by omega
    rcases hg with ⟨cell, hcell, hcells, hnot⟩
    refine ⟨cell, hcell, ?_, ?_⟩
    · show cell ∈ ((l ++ [g]).get i).cells
      rw [List.get_eq_getElem, List.getElem_append_right (by omega)]
      simpa [hieq] using hcells
    · rw [hieq, List.take_left]
      exact hnot

/-- Unpacking a membership of the candidate list. -/
theorem candidateRects_mem {nrows ncols : ℕ} {ones : Finset Cell} {g : GroupRect}
    (h : g ∈ candidateRects nrows ncols ones) :
    g.cells ⊆ ones ∧ g.cells = rect_cells g.r0 g.rows g.c0 g.cols nrows ncols ∧
      g.rows ∈ power_sizes nrows ∧ g.cols ∈ power_sizes ncols := by
  unfold candidateRects at h
  rcases List.mem_filterMap.1 h with ⟨t, htmem, hft⟩
  obtain ⟨r0, rows, c0, cols⟩ := t
  simp only at hft
  by_cases hc : (rect_cells r0 rows c0 cols nrows ncols).Nonempty ∧
      rect_cells r0 rows c0 cols nrows ncols ⊆ ones
  · rw [if_pos hc] at hft
    cases hft
    have hall := (mem_all_rects nrows ncols r0 rows c0 cols).1 htmem
    exact ⟨hc.2, rfl, hall.1, hall.2.1⟩
  · rw [if_neg hc] at hft
    cases hft

/-- Elements of `power_sizes` are powers of two. -/
theorem power_sizes_pow {limit x : ℕ} (h : x ∈ power_sizes limit) : ∃ m, x = 2 ^ m := by
  rcases powerSizesAux_pow limit 1 limit x h with ⟨m, hm⟩
  exact ⟨m, by simpa using hm⟩

/-- Every in-bounds cell of `ones` is covered by its own 1×1 candidate. -/
theorem singleton_mem_candidateRects {nrows ncols : ℕ} {ones : Finset Cell}
    (cell : Cell) (hcell : cell ∈ ones) (hr : cell.1 < nrows) (hc : cell.2 < ncols) :
    ∃ g ∈ candidateRects nrows ncols ones, cell ∈ g.cells := by
  have hrect : rect_cells cell.1 1 cell.2 1 nrows ncols = {cell} := by
    unfold rect_cells
    rw [Finset.range_one, Finset.singleton_product_singleton, Finset.image_singleton]
    simp [Nat.mod_eq_of_lt hr, Nat.mod_eq_of_lt hc]
  refine ⟨⟨cell.1, 1, cell.2, 1, rect_cells cell.1 1 cell.2 1 nrows ncols⟩, ?_, ?_⟩
  · unfold candidateRects
    apply List.mem_filterMap.2
    refine ⟨(cell.1, 1, cell.2, 1), ?_, ?_⟩
    · exact (mem_all_rects nrows ncols cell.1 1 cell.2 1).2
        ⟨one_mem_power_sizes nrows, one_mem_power_sizes ncols, hr, hc⟩
    · simp only
      rw [if_pos ⟨by rw [hrect]; exact Finset.singleton_nonempty cell,
        by rw [hrect]; simpa using hcell⟩]
  · show cell ∈ rect_cells cell.1 1 cell.2 1 nrows ncols
    rw [hrect]
    exact Finset.mem_singleton_self cell

/-- Every rectangle emitted by a pass of the essential search is the unique
candidate containing some cell of `ones`. -/
theorem essentialsPass_mem {cands : List GroupRect} {ones covered : Finset Cell}
    {g : GroupRect} (h : g ∈ essentialsPass cands ones covered) :
    ∃ cell ∈ ones, cands.filter (fun g' => decide (cell ∈ g'.cells)) = [g] := by
  unfold essentialsPass at h
  rcases List.mem_filterMap.1 h with ⟨cell, hcellmem, hmatch⟩
  have hcellones : cell ∈ ones :=
    (Finset.mem_sdiff.1 ((mem_sortedList cellLE _ cell).1 hcellmem)).1
  refine ⟨cell, hcellones, ?_⟩
  rcases hfil : cands.filter (fun g' => decide (cell ∈ g'.cells)) with _ | ⟨g1, tl⟩
  · rw [hfil] at hmatch
    cases hmatch
  · rcases tl with _ | ⟨g2, tl'⟩
    · rw [hfil] at hmatch
      cases hmatch
      exact hfil
    · rw [hfil] at hmatch
      cases hmatch

/-- `addEssential` preserves the invariant when the added rectangle is the
unique candidate containing some cell of `ones`. -/
theorem addEssential_inv {cands : List GroupRect} {ones : Finset Cell}
    {st : List GroupRect × Finset Cell} {g : GroupRect}
    (hinv : SelInv cands ones st)
    (hg : ∃ cell ∈ ones, cands.filter (fun g' => decide (cell ∈ g'.cells)) = [g]) :
    SelInv cands ones (addEssential st g) := by
  unfold addEssential
  by_cases hgin : g ∈ st.1
  · rw [if_pos hgin]
    exact hinv
  · rw [if_neg hgin]
    rcases hg with ⟨cell, hcellones, hfil⟩
    have hgfil : g ∈ cands.filter (fun g' => decide (cell ∈ g'.cells)) := by
      rw [hfil]
      exact List.mem_singleton_self g
    have hgcand : g ∈ cands := List.mem_of_mem_filter hgfil
    have hcellg : cell ∈ g.cells := by
      have := List.of_mem_filter hgfil
      simpa using this
    have hcellnot : cell ∉ unionCells st.1 := by
      intro hmem
      rcases (mem_unionCells _ _).1 hmem with ⟨g', hg'mem, hcellg'⟩
      have hg'fil : g' ∈ cands.filter (fun g'' => decide (cell ∈ g''.cells)) :=
        List.mem_filter.2 ⟨hinv.subset_cands g' hg'mem, by simpa using hcellg'⟩
      rw [hfil, List.mem_singleton] at hg'fil
      exact hgin (hg'fil ▸ hg'mem)
    refine ⟨?_, ?_, ?_⟩
    · show st.2 ∪ g.cells = unionCells (st.1 ++ [g])
      rw [unionCells_append, hinv.covered_eq]
    · intro g' hg'
      rcases List.mem_append.1 hg' with hg' | hg'
      · exact hinv.subset_cands g' hg'
      · rw [List.mem_singleton] at hg'
        exact hg' ▸ hgcand
    · exact freshList_append ones st.1 g hinv.fresh ⟨cell, hcellones, hcellg, hcellnot⟩

theorem foldl_addEssential_inv {cands : List GroupRect} {ones : Finset Cell}
    (ess : List GroupRect)
    (hess : ∀ g ∈ ess, ∃ cell ∈ ones, cands.filter (fun g' => decide (cell ∈ g'.cells)) = [g]) :
    ∀ st, SelInv cands ones st → SelInv cands ones (ess.foldl addEssential st) := by
  induction ess with
  | nil => intro st h; exact h
  | cons g ess ih =>
    intro st h
    exact ih (fun g' hg' => hess g' (List.mem_cons_of_mem g hg')) _
      (addEssential_inv h (hess g (List.mem_cons_self g ess)))

/-- The essential-group loop preserves the invariant (whatever the fuel). -/
theorem essentialLoop_inv (cands : List GroupRect) (ones : Finset Cell) :
    ∀ fuel st, SelInv cands ones st →
      SelInv cands ones (essentialLoop fuel cands ones st) := by
  intro fuel
  induction fuel with
  | zero => intro st h; exact h
  | succ fuel ih =>
    intro st h
    simp only [essentialLoop]
    by_cases hess : essentialsPass cands ones st.2 = []
    · rw [if_pos hess]
      exact h
    · rw [if_neg hess]
      exact ih _ (foldl_addEssential_inv _ (fun g hg => essentialsPass_mem hg) st h)

/-- The fold inside `argmaxBy` returns its seed or a list element. -/
theorem argmaxFold_mem (f : GroupRect → ℕ) (gs : List GroupRect) :
    ∀ b, gs.foldl (fun best x => if f best < f x then x else best) b = b ∨
      gs.foldl (fun best x => if f best < f x then x else best) b ∈ gs := by
  induction gs with
  | nil => intro b; exact Or.inl rfl
  | cons x gs ih =>
    intro b
    rcases ih (if f b < f x then x else b) with h | h
    · rw [List.foldl_cons] at *
      rw [h]
      by_cases hc : f b < f x
      · rw [if_pos hc] at h ⊢
        exact Or.inr (List.mem_cons_self x gs)
      · rw [if_neg hc] at h ⊢
        exact Or.inl rfl
    · exact Or.inr (List.mem_cons_of_mem x h)

/-- The fold inside `argmaxBy` dominates its seed and every list element. -/
theorem argmaxFold_ge (f : GroupRect → ℕ) (gs : List GroupRect) :
    ∀ b, f b ≤ f (gs.foldl (fun best x => if f best < f x then x else best) b) ∧
      ∀ x ∈ gs, f x ≤ f (gs.foldl (fun best x => if f best < f x then x else best) b) := by
  induction gs with
  | nil => intro b; exact ⟨le_rfl, by simp⟩
  | cons x gs ih =>
    intro b
    rcases ih (if f b < f x then x else b) with ⟨hseed, hall⟩
    have hb : f b ≤ f (if f b < f x then x else b) := by
      by_cases hc : f b < f x
      · rw [if_pos hc]; omega
      · rw [if_neg hc]
    have hx : f x ≤ f (if f b < f x then x else b) := by
      by_cases hc : f b < f x
      · rw [if_pos hc]
      · rw [if_neg hc]; omega
    refine ⟨le_trans hb hseed, ?_⟩
    intro y hy
    rcases List.mem_cons.1 hy with rfl | hy
    · exact le_trans hx hseed
    · exact hall y hy

theorem argmaxBy_mem {f : GroupRect → ℕ} {l : List GroupRect} {g : GroupRect}
    (h : argmaxBy f l = some g) : g ∈ l := by
  cases l with
  | nil => cases h
  | cons x gs =>
    simp only [argmaxBy, Option.some.injEq] at h
    rcases argmaxFold_mem f gs x with hm | hm
    · rw [← h, hm]
      exact List.mem_cons_self x gs
    · rw [← h]
      exact List.mem_cons_of_mem x hm

theorem argmaxBy_le {f : GroupRect → ℕ} {l : List GroupRect} {g : GroupRect}
    (h : argmaxBy f l = some g) : ∀ x ∈ l, f x ≤ f g := by
  cases l with
  | nil => cases h
  | cons x gs =>
    simp only [argmaxBy, Option.some.injEq] at h
    intro y hy
    rcases List.mem_cons.1 hy with rfl | hy
    · rw [← h]
      exact (argmaxFold_ge f gs y).1
    · rw [← h]
      exact (argmaxFold_ge f gs x).2 y hy

theorem argmaxBy_ne_nil (f : GroupRect → ℕ) (l : List GroupRect) (h : l ≠ []) :
    ∃ g, argmaxBy f l = some g := by
  cases l with
  | nil => exact absurd rfl h
  | cons x gs => exact ⟨_, rfl⟩

/-- Adding a candidate that still overlaps the uncovered cells keeps the
invariant. -/
theorem selInv_extend {cands : List GroupRect} {ones : Finset Cell}
    {st : List GroupRect × Finset Cell} {best : GroupRect}
    (h : SelInv cands ones st) (hbestmem : best ∈ cands)
    (hint : best.cells ∩ (ones \ st.2) ≠ ∅) :
    SelInv cands ones (st.1 ++ [best], st.2 ∪ best.cells) := by
  rcases Finset.nonempty_iff_ne_empty.2 hint with ⟨cell, hcell⟩
  have hcellbest : cell ∈ best.cells := (Finset.mem_inter.1 hcell).1
  have hcellrem : cell ∈ ones \ st.2 := (Finset.mem_inter.1 hcell).2
  refine ⟨?_, ?_, ?_⟩
  · show st.2 ∪ best.cells = unionCells (st.1 ++ [best])
    rw [unionCells_append, h.covered_eq]
  · intro g' hg'
    rcases List.mem_append.1 hg' with hg' | hg'
    · exact h.subset_cands g' hg'
    · rw [List.mem_singleton] at hg'
      exact hg' ▸ hbestmem
  · refine freshList_append ones st.1 best h.fresh
      ⟨cell, (Finset.mem_sdiff.1 hcellrem).1, hcellbest, ?_⟩
    rw [← h.covered_eq]
    exact (Finset.mem_sdiff.1 hcellrem).2

/-- The greedy loop preserves the invariant on any `some` result. -/
theorem greedyLoop_inv (cands : List GroupRect) (ones : Finset Cell) :
    ∀ fuel st st', SelInv cands ones st →
      greedyLoop fuel cands ones st = some st' → SelInv cands ones st' := by
  intro fuel
  induction fuel with
  | zero =>
    intro st st' h heq
    cases heq
    exact h
  | succ fuel ih =>
    intro st st' h heq
    simp only [greedyLoop] at heq
    by_cases hrem : ones \ st.2 = ∅
    · rw [if_pos hrem] at heq
      cases heq
      exact h
    · rw [if_neg hrem] at heq
      rcases harg : argmaxBy (overlap (ones \ st.2)) cands with _ | best
      · rw [harg] at heq
        cases heq
      · rw [harg] at heq
        dsimp only at heq
        by_cases hint : best.cells ∩ (ones \ st.2) = ∅
        · rw [if_pos hint] at heq
          cases heq
          exact h
        · rw [if_neg hint] at heq
          exact ih _ st' (selInv_extend h (argmaxBy_mem harg) hint) heq

/-- With enough fuel and a candidate through every 1-cell, the greedy loop
returns a state covering all of `ones`. -/
theorem greedyLoop_complete (cands : List GroupRect) (ones : Finset Cell)
    (hsing : ∀ cell ∈ ones, ∃ g ∈ cands, cell ∈ g.cells) :
    ∀ fuel st, SelInv cands ones st → (ones \ st.2).card < fuel →
      ∃ st', greedyLoop fuel cands ones st = some st' ∧ ones ⊆ st'.2 := by
  intro fuel
  induction fuel with
  | zero =>
    intro st _ hlt
    omega
  | succ fuel ih =>
    intro st h hlt
    simp only [greedyLoop]
    by_cases hrem : ones \ st.2 = ∅
    · rw [if_pos hrem]
      exact ⟨st, rfl, Finset.sdiff_eq_empty_iff_subset.1 hrem⟩
    · rw [if_neg hrem]
      rcases Finset.nonempty_iff_ne_empty.2 hrem with ⟨c1, hc1⟩
      have hc1ones : c1 ∈ ones := (Finset.mem_sdiff.1 hc1).1
      rcases hsing c1 hc1ones with ⟨gc, hgc, hcgc⟩
      have hcandsne : cands ≠ [] := by
        intro hnil
        rw [hnil] at hgc
        cases hgc
      rcases argmaxBy_ne_nil (overlap (ones \ st.2)) cands hcandsne with ⟨best, hbest⟩
      rw [hbest]
      dsimp only
      have hgcover : 1 ≤ overlap (ones \ st.2) gc := by
        unfold overlap
        rw [Nat.one_le_iff_ne_zero, ← Nat.pos_iff_ne_zero, Finset.card_pos]
        exact ⟨c1, Finset.mem_inter.2 ⟨hcgc, hc1⟩⟩
      have hover : 1 ≤ overlap (ones \ st.2) best :=
        le_trans hgcover (argmaxBy_le hbest gc hgc)
      have hint : best.cells ∩ (ones \ st.2) ≠ ∅ := by
        intro hemp
        unfold overlap at hover
        rw [hemp] at hover
        simp at hover
      rw [if_neg hint]
      rcases Finset.nonempty_iff_ne_empty.2 hint with ⟨c2, hc2⟩
      have hc2best : c2 ∈ best.cells := (Finset.mem_inter.1 hc2).1
      have hc2rem : c2 ∈ ones \ st.2 := (Finset.mem_inter.1 hc2).2
      have hlt2 : (ones \ (st.2 ∪ best.cells)).card < fuel := by
        have hss : ones \ (st.2 ∪ best.cells) ⊂ ones \ st.2 := by
          refine Finset.ssubset_iff_of_subset ?_ |>.2 ⟨c2, hc2rem, ?_⟩
          · intro c hc
            rcases Finset.mem_sdiff.1 hc with ⟨hc', hnc⟩
            exact Finset.mem_sdiff.2 ⟨hc', fun hmem => hnc (Finset.mem_union_left _ hmem)⟩
          · intro hc2mem
            exact (Finset.mem_sdiff.1 hc2mem).2 (Finset.mem_union_right _ hc2best)
        have := Finset.card_lt_card hss
        omega
      exact ih _ (selInv_extend h (argmaxBy_mem hbest) hint) hlt2

/-- `addEssential` keeps every rectangle already chosen. -/
theorem addEssential_mono {st : List GroupRect × Finset Cell} {g x : GroupRect}
    (hx : x ∈ st.1) : x ∈ (addEssential st g).1 := by
  unfold addEssential
  by_cases hgin : g ∈ st.1
  · rw [if_pos hgin]
    exact hx
  · rw [if_neg hgin]
    exact List.mem_append_left _ hx

/-- After `addEssential st g`, the rectangle `g` is chosen. -/
theorem addEssential_self (st : List GroupRect × Finset Cell) (g : GroupRect) :
    g ∈ (addEssential st g).1 := by
  unfold addEssential
  by_cases hgin : g ∈ st.1
  · rw [if_pos hgin]
    exact hgin
  · rw [if_neg hgin]
    exact List.mem_append_right _ (List.mem_singleton_self g)

/-- Every rectangle of the processed pass ends up chosen. -/
theorem foldl_addEssential_mem (ess : List GroupRect) :
    ∀ st, (∀ x ∈ st.1, x ∈ (ess.foldl addEssential st).1) ∧
      ∀ g ∈ ess, g ∈ (ess.foldl addEssential st).1 := by
  induction ess with
  | nil => intro st; exact ⟨fun x hx => hx, by simp⟩
  | cons g ess ih =>
    intro st
    rcases ih (addEssential st g) with ⟨hmono, hmem⟩
    refine ⟨fun x hx => hmono x (addEssential_mono hx), ?_⟩
    intro g' hg'
    rcases List.mem_cons.1 hg' with rfl | hg'
    · exact hmono g' (addEssential_self st g')
    · exact hmem g' hg'

/-- With the fuel used at the call site, the essential loop always exits
through its own `essentials == []` condition: the state it returns is a
fixpoint of the pass, exactly as in the unbounded Python `while True` loop.
(Each pass on a reachable state strictly shrinks the uncovered part of
`ones`, so `ones.card + 1` iterations are enough.) -/
theorem essentialLoop_reaches_fixpoint (cands : List GroupRect) (ones : Finset Cell) :
    ∀ fuel st, SelInv cands ones st → (ones \ st.2).card < fuel →
      essentialsPass cands ones (essentialLoop fuel cands ones st).2 = [] := by
  intro fuel
  induction fuel with
  | zero =>
    intro st _ hlt
    omega
  | succ fuel ih =>
    intro st hinv hlt
    simp only [essentialLoop]
    by_cases hess : essentialsPass cands ones st.2 = []
    · rw [if_pos hess]
      exact hess
    · rw [if_neg hess]
      have hinv2 := foldl_addEssential_inv (essentialsPass cands ones st.2)
        (fun g hg => essentialsPass_mem hg) st hinv
      apply ih _ hinv2
      -- the pass covers the witness cell of some essential, shrinking ones \ covered
      rcases List.exists_mem_of_ne_nil _ hess with ⟨g, hg⟩
      have hgmem := hg
      unfold essentialsPass at hgmem
      rcases List.mem_filterMap.1 hgmem with ⟨cell, hcellmem, hmatch⟩
      have hcellrem : cell ∈ ones \ st.2 :=
        (mem_sortedList cellLE _ cell).1 hcellmem
      have hcellg : cell ∈ g.cells := by
        rcases hfil : cands.filter (fun g' => decide (cell ∈ g'.cells)) with _ | ⟨g1, tl⟩
        · rw [hfil] at hmatch
          cases hmatch
        · rcases tl with _ | ⟨g2, tl'⟩
          · rw [hfil] at hmatch
            cases hmatch
            have hgfil : g ∈ cands.filter (fun g' => decide (cell ∈ g'.cells)) := by
              rw [hfil]
              exact List.mem_singleton_self g
            simpa using List.of_mem_filter hgfil
          · rw [hfil] at hmatch
            cases hmatch
      -- cell is covered after the fold
      have hgchosen : g ∈ ((essentialsPass cands ones st.2).foldl addEssential st).1 :=
        (foldl_addEssential_mem _ st).2 g hg
      have hcellcov : cell ∈ ((essentialsPass cands ones st.2).foldl addEssential st).2 := by
        rw [hinv2.covered_eq, mem_unionCells]
        exact ⟨g, hgchosen, hcellg⟩
      have hss : ones \ ((essentialsPass cands ones st.2).foldl addEssential st).2 ⊂
          ones \ st.2 := by
        refine Finset.ssubset_iff_of_subset ?_ |>.2 ⟨cell, hcellrem, ?_⟩
        · intro c hc
          rcases Finset.mem_sdiff.1 hc with ⟨hcones, hcnot⟩
          refine Finset.mem_sdiff.2 ⟨hcones, fun hcst => hcnot ?_⟩
          -- covered only grows along the fold
          have hmono : st.2 ⊆ ((essentialsPass cands ones st.2).foldl addEssential st).2 := by
            rw [hinv2.covered_eq, hinv.covered_eq]
            intro x hx
            rcases (mem_unionCells _ _).1 hx with ⟨g', hg', hxg'⟩
            exact (mem_unionCells _ _).2 ⟨g', (foldl_addEssential_mem _ st).1 g' hg', hxg'⟩
          exact hmono hcst
        · intro hcell2
          exact (Finset.mem_sdiff.1 hcell2).2 hcellcov
      have := Finset.card_lt_card hss
      omega

/-- Master correctness of `select_group_rectangles` for in-bounds `ones`:
the call succeeds, the chosen cells union to exactly `ones`, every chosen
rectangle is a candidate, and each covers a fresh cell. -/
theorem select_spec (nrows ncols : ℕ) (ones : Finset Cell)
    (hbound : ∀ cell ∈ ones, cell.1 < nrows ∧ cell.2 < ncols) :
    ∃ l, select_group_rectangles nrows ncols ones = some l ∧
      unionCells l = ones ∧
      (∀ g ∈ l, g ∈ candidateRects nrows ncols ones) ∧
      FreshList ones l := by
  by_cases hone : ones = ∅
  · refine ⟨[], ?_, ?_, by simp, freshList_nil ones⟩
    · unfold select_group_rectangles
      rw [if_pos hone]
    · rw [hone]
      rfl
  · unfold select_group_rectangles
    rw [if_neg hone]
    have hsing : ∀ cell ∈ ones, ∃ g ∈ candidateRects nrows ncols ones, cell ∈ g.cells :=
      fun cell hc => singleton_mem_candidateRects cell hc (hbound cell hc).1 (hbound cell hc).2
    have hinv0 : SelInv (candidateRects nrows ncols ones) ones ([], ∅) :=
      ⟨rfl, by simp, freshList_nil ones⟩
    have hinv1 := essentialLoop_inv (candidateRects nrows ncols ones) ones
      (ones.card + 1) ([], ∅) hinv0
    have hcard : (ones \ (essentialLoop (ones.card + 1)
        (candidateRects nrows ncols ones) ones ([], ∅)).2).card < ones.card + 1 := by
      have hsub := Finset.card_le_card
        (Finset.sdiff_subset (s := ones)
          (t := (essentialLoop (ones.card + 1) (candidateRects nrows ncols ones) ones ([], ∅)).2))
      omega
    rcases greedyLoop_complete (candidateRects nrows ncols ones) ones hsing
      (ones.card + 1) _ hinv1 hcard with ⟨st', hst', hsubones⟩
    have hinv' := greedyLoop_inv (candidateRects nrows ncols ones) ones
      (ones.card + 1) _ st' hinv1 hst'
    refine ⟨st'.1, ?_, ?_, hinv'.subset_cands, hinv'.fresh⟩
    · dsimp only
      rw [hst']
      rfl
    · apply Finset.Subset.antisymm
      · intro c hc
        rcases (mem_unionCells _ _).1 hc with ⟨g, hg, hcg⟩
        exact (candidateRects_mem (hinv'.subset_cands g hg)).1 hcg
      · intro c hc
        have hcc := hsubones hc
        rwa [hinv'.covered_eq] at hcc

/-- C1.  For every grid from `map_dimensions` and every in-bounds set of
1-cells: the selector succeeds; the union of the cell sets of the returned
rectangles equals `ones` exactly (so for empty `ones` the result is the empty
list, stated separately as well); every rectangle's full wrap-around coverage
`rect_cells (r0, rows, c0, cols)` equals its stored cell set and is contained
in `ones` (no 0-cell is covered); and every rectangle's height and width are
powers of two. -/
theorem claim_C1 (n nrows ncols : ℕ) (ones : Finset Cell)
    (hdim : map_dimensions n = some (nrows, ncols))
    (hbound : ∀ cell ∈ ones, cell.1 < nrows ∧ cell.2 < ncols) :
    (ones = ∅ → select_group_rectangles nrows ncols ones = some []) ∧
    ∃ l, select_group_rectangles nrows ncols ones = some l ∧
      unionCells l = ones ∧
      (∀ g ∈ l, rect_cells g.r0 g.rows g.c0 g.cols nrows ncols ⊆ ones ∧
        g.cells = rect_cells g.r0 g.rows g.c0 g.cols nrows ncols) ∧
      (∀ g ∈ l, (∃ k, g.rows = 2 ^ k) ∧ ∃ k, g.cols = 2 ^ k) := by
  rcases select_spec nrows ncols ones hbound with ⟨l, hl, huni, hcand, _⟩
  constructor
  · intro hone
    unfold select_group_rectangles
    rw [if_pos hone]
  · refine ⟨l, hl, huni, ?_, ?_⟩
    · intro g hg
      rcases candidateRects_mem (hcand g hg) with ⟨hsub, hcells, _, _⟩
      exact ⟨hcells ▸ hsub, hcells⟩
    · intro g hg
      rcases candidateRects_mem (hcand g hg) with ⟨_, _, hrows, hcols⟩
      exact ⟨power_sizes_pow hrows, power_sizes_pow hcols⟩

/-- Witness for C1: the 2×2 grid with the single 1-cell `(0,0)`. -/
theorem claim_C1_witness :
    (({((0 : ℕ), (0 : ℕ))} : Finset Cell) = ∅ →
      select_group_rectangles 2 2 {((0 : ℕ), (0 : ℕ))} = some []) ∧
    ∃ l, select_group_rectangles 2 2 {((0 : ℕ), (0 : ℕ))} = some l ∧
      unionCells l = {((0 : ℕ), (0 : ℕ))} ∧
      (∀ g ∈ l, rect_cells g.r0 g.rows g.c0 g.cols 2 2 ⊆ {((0 : ℕ), (0 : ℕ))} ∧
        g.cells = rect_cells g.r0 g.rows g.c0 g.cols 2 2) ∧
      (∀ g ∈ l, (∃ k, g.rows = 2 ^ k) ∧ ∃ k, g.cols = 2 ^ k) :=
  claim_C1 2 2 2 {(0, 0)} rfl (by decide)

/-- C10.  Whenever the selector returns a sequence, each returned rectangle
covers at least one 1-cell that no earlier rectangle of the sequence covers;
consequently the sequence has no duplicate rectangles and is no longer than
the number of 1-cells. -/
theorem claim_C10 (n nrows ncols : ℕ) (ones : Finset Cell)
    (hdim : map_dimensions n = some (nrows, ncols))
    (hbound : ∀ cell ∈ ones, cell.1 < nrows ∧ cell.2 < ncols) :
    ∀ l, select_group_rectangles nrows ncols ones = some l →
      (∀ i : Fin l.length, ∃ cell ∈ ones, cell ∈ (l.get i).cells ∧
        ∀ j : Fin l.length, j.val < i.val → cell ∉ (l.get j).cells) ∧
      l.Nodup ∧ l.length ≤ ones.card := by
  intro l hl
  rcases select_spec nrows ncols ones hbound with ⟨l', hl', _, _, hfresh⟩
  rw [hl] at hl'
  cases hl'
  have hget : ∀ i : Fin l.length, ∃ cell ∈ ones, cell ∈ (l.get i).cells ∧
      ∀ j : Fin l.length, j.val < i.val → cell ∉ (l.get j).cells := by
    intro i
    rcases hfresh i with ⟨cell, hcellones, hcells, hnot⟩
    refine ⟨cell, hcellones, hcells, ?_⟩
    intro j hj hmem
    apply hnot
    rw [mem_unionCells]
    refine ⟨l.get j, ?_, hmem⟩
    have hj2 : j.val < (l.take i.val).length := by
      rw [List.length_take]
      have := i.2
      have := j.2
      omega
    have hgetTake : (l.take i.val).get ⟨j.val, hj2⟩ = l.get j := by
      rw [List.get_eq_getElem, List.get_eq_getElem, List.getElem_take]
    rw [← hgetTake]
    exact List.get_mem _ _ _
  refine ⟨hget, ?_, ?_⟩
  · rw [List.nodup_iff_injective_get]
    intro i j hij
    by_contra hne
    rcases Nat.lt_or_ge i.val j.val with hlt | hge
    · rcases hget j with ⟨cell, _, hcells, hnot⟩
      refine hnot i hlt ?_
      rw [hij]
      exact hcells
    · have hlt : j.val < i.val := by
        rcases Nat.lt_or_ge j.val i.val with h | h
        · exact h
        · exact absurd (Fin.ext (by omega)) hne
      rcases hget i with ⟨cell, _, hcells, hnot⟩
      refine hnot j hlt ?_
      rw [← hij]
      exact hcells
  · classical
    choose f hfones hfcells hfnot using hget
    have hcard := Finset.card_le_card_of_injOn (s := (Finset.univ : Finset (Fin l.length)))
      (t := ones) f (fun i _ => hfones i) ?_
    · simpa using hcard
    · intro i _ j _ heq
      by_contra hne
      rcases Nat.lt_or_ge i.val j.val with hlt | hge
      · refine hfnot j i hlt ?_
        rw [← heq]
        exact hfcells i
      · have hlt : j.val < i.val := by
          rcases Nat.lt_or_ge j.val i.val with h | h
          · exact h
          · exact absurd (Fin.ext (by omega)) hne
        refine hfnot i j hlt ?_
        rw [heq]
        exact hfcells j

/-- Witness for C10 at the 2×2 grid with the single 1-cell `(0,0)`. -/
theorem claim_C10_witness :
    (∀ i : Fin c10WitnessList.length, ∃ cell ∈ ({((0 : ℕ), (0 : ℕ))} : Finset Cell),
      cell ∈ (c10WitnessList.get i).cells ∧
      ∀ j : Fin c10WitnessList.length, j.val < i.val →
        cell ∉ (c10WitnessList.get j).cells) ∧
    c10WitnessList.Nodup ∧
    c10WitnessList.length ≤ ({((0 : ℕ), (0 : ℕ))} : Finset Cell).card :=
  claim_C10 2 2 2 {(0, 0)} rfl (by decide) c10WitnessList (by decide)

end KMap
